import Mathlib

/-!
Verification of the Robodepop pop-removal core (`src/lib.rs`).

The integer batch filter `clean_data`, the legacy variant `clean_data_old`,
the floating-point batch pass `clean_data_f` and the in-place streaming pass
`clean_data_f_inner`, and the peak-meter update from `Gain::process` are
shallowly embedded below.  32-bit integer samples are modelled as `ℤ` (the
Rust code widens to `i64` before any arithmetic, and none of the widened
expressions can overflow `i64`, so `ℤ` with truncating division `Int.tdiv`
is an exact model).  The floating-point passes are embedded generically over
an operation record, since the properties proved about them are structural
and hold for every interpretation of the `f32`/`f64` operations.
-/

namespace Robodepop

/-- `i32::MAX` = 2^31 − 1. -/
def i32Max : ℤ := 2147483647

/-- `i32::MIN` = −2^31. -/
def i32Min : ℤ := -2147483648

/-- Neighbor minimum `(*a).min(*b).min(*d).min(*e)` (lib.rs:299). -/
def nbrMin (a b d e : ℤ) : ℤ := min (min (min a b) d) e

/-- Neighbor maximum `(*a).max(*b).max(*d).max(*e)` (lib.rs:300). -/
def nbrMax (a b d e : ℤ) : ℤ := max (max (max a b) d) e

/-- `distance = (max as i64 - min as i64).abs()` (lib.rs:301). -/
def nbrDistance (a b d e : ℤ) : ℤ := |nbrMax a b d e - nbrMin a b d e|

/-- `avg = (max as i64 + min as i64) / 2` (lib.rs:302); Rust `i64` division
truncates toward zero, i.e. `Int.tdiv`. -/
def nbrAvg (a b d e : ℤ) : ℤ := Int.tdiv (nbrMax a b d e + nbrMin a b d e) 2

/-- The body of the `map_windows` closure of `clean_data` (lib.rs:297-314):
classify the center `c` against its four neighbors and, when it is an
outlier, replace it by `avg` narrowed back to `i32`
(`avg.try_into().unwrap_or(...)` saturates to `i32::MAX`/`i32::MIN`). -/
def evalWindow (a b c d e : ℤ) : ℤ :=
  let point := c
  let distance := nbrDistance a b d e
  let avg := nbrAvg a b d e
  if point > avg + distance * 2 ∨ point < avg - distance * 2 then
    if i32Min ≤ avg ∧ avg ≤ i32Max then
      avg
    else if i32Max < avg then i32Max else i32Min
  else
    point

/-- The sentinel-padding rule shared by both domains: prepend `hi, lo` and
append `hi, lo` (the push/extend/push sequence of `clean_data` at
lib.rs:288-293 and of `clean_data_f` at lib.rs:261-266). -/
def padWith (hi lo : α) (data : List α) : List α :=
  hi :: lo :: (data ++ [hi, lo])

/-- The sentinel-padded copy built by `clean_data` (lib.rs:288-293):
`i32::MAX, i32::MIN, data..., i32::MAX, i32::MIN`. -/
def paddedI (data : List ℤ) : List ℤ :=
  padWith i32Max i32Min data

/-- `Iterator::map_windows` with window size 5: apply `f` to every five
consecutive elements.  Structural recursion on the tail. -/
def mapWindows5 (f : α → α → α → α → α → α) : List α → List α
  | [] => []
  | a :: rest =>
    match rest with
    | b :: c :: d :: e :: _ => f a b c d e :: mapWindows5 f rest
    | _ => []

/-- The integer batch filter `clean_data` (lib.rs:287-318). -/
def clean_data (data : List ℤ) : List ℤ :=
  mapWindows5 evalWindow (paddedI data)

/-- The legacy variant `clean_data_old` (lib.rs:235-257).  `usize`
subtractions are modelled by truncating `Nat` subtraction, which agrees with
Rust wherever the Rust code does not underflow (`data.len() ≥ 5`); `i32`
window arithmetic is modelled on `ℤ`, exact wherever the Rust code does not
overflow. -/
def clean_data_old (data : List ℤ) : List ℤ :=
  let first := data.take 5
  let middle := (List.range' 6 (data.length - 4 - 6)).map (fun i =>
    let w0 := data.getD (i - 3) 0
    let w1 := data.getD (i - 2) 0
    let point := data.getD (i - 1) 0
    let w3 := data.getD i 0
    let w4 := data.getD (i + 1) 0
    let mn := min (min (min w0 w1) w3) w4
    let mx := max (max (max w0 w1) w3) w4
    let distance := |mx - mn|
    let avg := Int.tdiv (mx + mn) 2
    if point > avg + distance * 2 ∨ point < avg - distance * 2 then avg
    else point)
  let last := data.drop (data.length - 5)
  first ++ middle ++ last

/-- Truncating division by two differs from exact halving by at most one:
`s − 1 ≤ 2·tdiv s 2 ≤ s + 1`. -/
theorem tdiv2_bounds (s : ℤ) : s - 1 ≤ 2 * Int.tdiv s 2 ∧ 2 * Int.tdiv s 2 ≤ s + 1 := by
  cases s with
  | ofNat m =>
    rw [show Int.tdiv (Int.ofNat m) 2 = ((m / 2 : ℕ) : ℤ) from rfl,
      show Int.ofNat m = ((m : ℕ) : ℤ) from rfl]
    omega
  | negSucc m =>
    rw [show Int.tdiv (Int.negSucc m) 2 = -(((m + 1) / 2 : ℕ) : ℤ) from rfl,
      Int.negSucc_eq]
    omega

/-- The neighbor average always lies between the neighbor minimum and
maximum. -/
theorem nbrAvg_between (a b d e : ℤ) :
    nbrMin a b d e ≤ nbrAvg a b d e ∧ nbrAvg a b d e ≤ nbrMax a b d e := by
  have hle : nbrMin a b d e ≤ nbrMax a b d e := by
    unfold nbrMin nbrMax
    have h1 : min (min (min a b) d) e ≤ a :=
      le_trans (min_le_left _ _) (le_trans (min_le_left _ _) (min_le_left _ _))
    have h2 : a ≤ max (max (max a b) d) e :=
      le_trans (le_max_left _ _) (le_trans (le_max_left _ _) (le_max_left _ _))
    exact le_trans h1 h2
  have hb := tdiv2_bounds (nbrMax a b d e + nbrMin a b d e)
  unfold nbrAvg
  omega

/-- `mapWindows5` shortens a list by four. -/
theorem mapWindows5_length (f : α → α → α → α → α → α) :
    ∀ l : List α, (mapWindows5 f l).length = l.length - 4 := by
  intro l
  induction l with
  | nil => rfl
  | cons a rest ih =>
    match rest, ih with
    | [], _ => rfl
    | [b], _ => rfl
    | [b, c], _ => rfl
    | [b, c, d], _ => rfl
    | b :: c :: d :: e :: t, ih =>
      rw [show mapWindows5 f (a :: b :: c :: d :: e :: t)
          = f a b c d e :: mapWindows5 f (b :: c :: d :: e :: t) from rfl]
      simp only [List.length_cons] at ih ⊢
      omega

/-- The `i`-th element of `mapWindows5 f l` is `f` applied to the five
elements of `l` starting at position `i`. -/
theorem mapWindows5_getD (f : α → α → α → α → α → α) (z : α) :
    ∀ (l : List α) (i : ℕ), i + 4 < l.length →
      (mapWindows5 f l).getD i z =
        f (l.getD i z) (l.getD (i + 1) z) (l.getD (i + 2) z)
          (l.getD (i + 3) z) (l.getD (i + 4) z) := by
  intro l
  induction l with
  | nil => intro i h; simp at h
  | cons a rest ih =>
    intro i h
    match rest, ih, h with
    | [], _, h => simp only [List.length] at h; omega
    | [b], _, h => simp only [List.length] at h; omega
    | [b, c], _, h => simp only [List.length] at h; omega
    | [b, c, d], _, h => simp only [List.length] at h; omega
    | b :: c :: d :: e :: t, ih, h =>
      rw [show mapWindows5 f (a :: b :: c :: d :: e :: t)
          = f a b c d e :: mapWindows5 f (b :: c :: d :: e :: t) from rfl]
      cases i with
      | zero => simp [List.getD_cons_zero, List.getD_cons_succ]
      | succ j =>
        have hj : j + 4 < (b :: c :: d :: e :: t).length := by
          simp only [List.length_cons] at h ⊢; omega
        simp only [List.getD_cons_succ]
        exact ih j hj

/-- Two lists of the same length whose `getD` views agree are equal. -/
theorem eq_of_getD (z : α) : ∀ (l1 l2 : List α), l1.length = l2.length →
    (∀ i, i < l1.length → l1.getD i z = l2.getD i z) → l1 = l2 := by
  intro l1
  induction l1 with
  | nil =>
    intro l2 hlen _
    cases l2 with
    | nil => rfl
    | cons b t2 => simp at hlen
  | cons a t ih =>
    intro l2 hlen h
    cases l2 with
    | nil => simp at hlen
    | cons b t2 =>
      have h0 := h 0 (by simp)
      simp only [List.getD_cons_zero] at h0
      have ht : t = t2 := by
        apply ih t2 (by simp only [List.length_cons] at hlen; omega)
        intro i hi
        have := h (i + 1) (by simp only [List.length_cons]; omega)
        simpa only [List.getD_cons_succ] using this
      rw [h0, ht]

theorem padWith_length (hi lo : α) (x : List α) :
    (padWith hi lo x).length = x.length + 4 := by
  simp [padWith]

theorem padWith_getD_zero (hi lo z : α) (x : List α) :
    (padWith hi lo x).getD 0 z = hi := rfl

theorem padWith_getD_one (hi lo z : α) (x : List α) :
    (padWith hi lo x).getD 1 z = lo := rfl

/-- Positions `2 ≤ j < n + 2` of the padded sequence hold the input. -/
theorem padWith_getD_mid (hi lo z : α) (x : List α) (i : ℕ) (h : i < x.length) :
    (padWith hi lo x).getD (i + 2) z = x.getD i z := by
  show (x ++ [hi, lo]).getD i z = x.getD i z
  rw [List.getD_append _ _ _ _ h]

theorem padWith_getD_backMax (hi lo z : α) (x : List α) :
    (padWith hi lo x).getD (x.length + 2) z = hi := by
  show (x ++ [hi, lo]).getD x.length z = hi
  rw [List.getD_append_right _ _ _ _ (le_refl _)]
  simp

theorem padWith_getD_backMin (hi lo z : α) (x : List α) :
    (padWith hi lo x).getD (x.length + 3) z = lo := by
  show (x ++ [hi, lo]).getD (x.length + 1) z = lo
  rw [List.getD_append_right _ _ _ _ (by omega)]
  simp

theorem paddedI_length (x : List ℤ) : (paddedI x).length = x.length + 4 :=
  padWith_length i32Max i32Min x

theorem paddedI_getD_zero (x : List ℤ) : (paddedI x).getD 0 0 = i32Max := rfl

theorem paddedI_getD_one (x : List ℤ) : (paddedI x).getD 1 0 = i32Min := rfl

/-- Positions `2 ≤ j < n + 2` of the padded sequence hold the input. -/
theorem paddedI_getD_mid (x : List ℤ) (i : ℕ) (h : i < x.length) :
    (paddedI x).getD (i + 2) 0 = x.getD i 0 :=
  padWith_getD_mid i32Max i32Min 0 x i h

theorem paddedI_getD_backMax (x : List ℤ) :
    (paddedI x).getD (x.length + 2) 0 = i32Max :=
  padWith_getD_backMax i32Max i32Min 0 x

theorem paddedI_getD_backMin (x : List ℤ) :
    (paddedI x).getD (x.length + 3) 0 = i32Min :=
  padWith_getD_backMin i32Max i32Min 0 x

/-- Every element of the padded sequence is in the `i32` range, provided the
input is. -/
theorem paddedI_mem_range (x : List ℤ) (hx : ∀ a ∈ x, i32Min ≤ a ∧ a ≤ i32Max) :
    ∀ a ∈ paddedI x, i32Min ≤ a ∧ a ≤ i32Max := by
  intro a ha
  have hMm : i32Min ≤ i32Max ∧ i32Min ≤ i32Min ∧ i32Max ≤ i32Max := by
    refine ⟨by norm_num [i32Min, i32Max], le_refl _, le_refl _⟩
  simp only [paddedI, padWith, List.mem_cons, List.mem_append, List.mem_cons,
    List.mem_singleton] at ha
  rcases ha with rfl | rfl | h | rfl | (rfl | h)
  · exact ⟨hMm.1, hMm.2.2⟩
  · exact ⟨hMm.2.1, hMm.1⟩
  · exact hx a h
  · exact ⟨hMm.1, hMm.2.2⟩
  · exact ⟨hMm.2.1, hMm.1⟩
  · exact absurd h (List.not_mem_nil a)

/-- A `getD` access below the length yields a member of the list. -/
theorem getD_mem (z : α) : ∀ (l : List α) (i : ℕ), i < l.length → l.getD i z ∈ l := by
  intro l
  induction l with
  | nil => intro i h; simp at h
  | cons a t ih =>
    intro i h
    cases i with
    | zero => simp only [List.getD_cons_zero]; exact List.mem_cons_self a t
    | succ j =>
      simp only [List.getD_cons_succ]
      exact List.mem_cons_of_mem a (ih j (by simp only [List.length_cons] at h; omega))

/-- A center that is not flagged as an outlier is returned unchanged. -/
theorem evalWindow_not_outlier {a b c d e : ℤ}
    (h : ¬(c > nbrAvg a b d e + nbrDistance a b d e * 2 ∨
           c < nbrAvg a b d e - nbrDistance a b d e * 2)) :
    evalWindow a b c d e = c := by
  show (if c > nbrAvg a b d e + nbrDistance a b d e * 2 ∨
          c < nbrAvg a b d e - nbrDistance a b d e * 2 then
        if i32Min ≤ nbrAvg a b d e ∧ nbrAvg a b d e ≤ i32Max then nbrAvg a b d e
        else if i32Max < nbrAvg a b d e then i32Max else i32Min
      else c) = c
  rw [if_neg h]

/-- A window whose first two entries are the two leading sentinels keeps any
in-range center: its `distance` spans the whole `i32` range. -/
theorem evalWindow_sentinel_front (c d e : ℤ)
    (hc1 : i32Min ≤ c) (hc2 : c ≤ i32Max) (hd1 : i32Min ≤ d) (hd2 : d ≤ i32Max)
    (he1 : i32Min ≤ e) (he2 : e ≤ i32Max) :
    evalWindow i32Max i32Min c d e = c := by
  have hmn : nbrMin i32Max i32Min d e = i32Min := by
    simp only [nbrMin, i32Min, i32Max] at *; omega
  have hmx : nbrMax i32Max i32Min d e = i32Max := by
    simp only [nbrMax, i32Min, i32Max] at *; omega
  apply evalWindow_not_outlier
  rw [nbrDistance, nbrAvg, hmn, hmx]
  simp only [i32Min, i32Max] at *
  rw [show |(2147483647 : ℤ) - -2147483648| = 4294967295 from rfl,
    show Int.tdiv ((2147483647 : ℤ) + -2147483648) 2 = 0 from rfl]
  omega

/-- A window whose last two entries are the two trailing sentinels keeps any
in-range center. -/
theorem evalWindow_sentinel_back (a b c : ℤ)
    (ha1 : i32Min ≤ a) (ha2 : a ≤ i32Max) (hb1 : i32Min ≤ b) (hb2 : b ≤ i32Max)
    (hc1 : i32Min ≤ c) (hc2 : c ≤ i32Max) :
    evalWindow a b c i32Max i32Min = c := by
  have hmn : nbrMin a b i32Max i32Min = i32Min := by
    simp only [nbrMin, i32Min, i32Max] at *; omega
  have hmx : nbrMax a b i32Max i32Min = i32Max := by
    simp only [nbrMax, i32Min, i32Max] at *; omega
  apply evalWindow_not_outlier
  rw [nbrDistance, nbrAvg, hmn, hmx]
  simp only [i32Min, i32Max] at *
  rw [show |(2147483647 : ℤ) - -2147483648| = 4294967295 from rfl,
    show Int.tdiv ((2147483647 : ℤ) + -2147483648) 2 = 0 from rfl]
  omega

/-- Window 1 of the spike input: `(i32::MIN, 0, 0, 0, v)` keeps its zero
center. -/
theorem evalWindow_spike1 (v : ℤ) (h1 : i32Min ≤ v) (h2 : v ≤ i32Max) :
    evalWindow i32Min 0 0 0 v = 0 := by
  apply evalWindow_not_outlier
  have hsub : (0 : ℤ) ≤ nbrMax i32Min 0 0 v - nbrMin i32Min 0 0 v := by
    simp only [nbrMin, nbrMax]; omega
  have hb := tdiv2_bounds (nbrMax i32Min 0 0 v + nbrMin i32Min 0 0 v)
  rw [nbrDistance, abs_of_nonneg hsub, nbrAvg]
  simp only [nbrMin, nbrMax, i32Min, i32Max] at *
  omega

/-- Window 2 of the spike input: `(0, 0, 0, v, 0)` keeps its zero center. -/
theorem evalWindow_spike2 (v : ℤ) (h1 : i32Min ≤ v) (h2 : v ≤ i32Max) :
    evalWindow 0 0 0 v 0 = 0 := by
  apply evalWindow_not_outlier
  have hsub : (0 : ℤ) ≤ nbrMax 0 0 v 0 - nbrMin 0 0 v 0 := by
    simp only [nbrMin, nbrMax]; omega
  have hb := tdiv2_bounds (nbrMax 0 0 v 0 + nbrMin 0 0 v 0)
  rw [nbrDistance, abs_of_nonneg hsub, nbrAvg]
  simp only [nbrMin, nbrMax, i32Min, i32Max] at *
  omega

/-- Window 3 of the spike input: the center `v` sits on four zero neighbors,
so it is replaced by `avg = 0` whenever it is nonzero (and kept when zero). -/
theorem evalWindow_spike3 (v : ℤ) : evalWindow 0 0 v 0 0 = 0 := by
  have hmn : nbrMin 0 0 0 0 = 0 := rfl
  have hmx : nbrMax 0 0 0 0 = 0 := rfl
  show (if v > nbrAvg 0 0 0 0 + nbrDistance 0 0 0 0 * 2 ∨
          v < nbrAvg 0 0 0 0 - nbrDistance 0 0 0 0 * 2 then
        if i32Min ≤ nbrAvg 0 0 0 0 ∧ nbrAvg 0 0 0 0 ≤ i32Max then nbrAvg 0 0 0 0
        else if i32Max < nbrAvg 0 0 0 0 then i32Max else i32Min
      else v) = 0
  rw [show nbrAvg 0 0 0 0 = 0 from rfl, show nbrDistance 0 0 0 0 = 0 from rfl]
  rcases eq_or_ne v 0 with rfl | hv
  · norm_num
  · rw [if_pos (by omega), if_pos (by norm_num [i32Min, i32Max])]

/-- Window 4 of the spike input: `(0, v, 0, 0, 0)` keeps its zero center. -/
theorem evalWindow_spike4 (v : ℤ) (h1 : i32Min ≤ v) (h2 : v ≤ i32Max) :
    evalWindow 0 v 0 0 0 = 0 := by
  apply evalWindow_not_outlier
  have hsub : (0 : ℤ) ≤ nbrMax 0 v 0 0 - nbrMin 0 v 0 0 := by
    simp only [nbrMin, nbrMax]; omega
  have hb := tdiv2_bounds (nbrMax 0 v 0 0 + nbrMin 0 v 0 0)
  rw [nbrDistance, abs_of_nonneg hsub, nbrAvg]
  simp only [nbrMin, nbrMax, i32Min, i32Max] at *
  omega

/-- Window 5 of the spike input: `(v, 0, 0, 0, i32::MAX)` keeps its zero
center. -/
theorem evalWindow_spike5 (v : ℤ) (h1 : i32Min ≤ v) (h2 : v ≤ i32Max) :
    evalWindow v 0 0 0 i32Max = 0 := by
  apply evalWindow_not_outlier
  have hsub : (0 : ℤ) ≤ nbrMax v 0 0 i32Max - nbrMin v 0 0 i32Max := by
    simp only [nbrMin, nbrMax]; omega
  have hb := tdiv2_bounds (nbrMax v 0 0 i32Max + nbrMin v 0 0 i32Max)
  rw [nbrDistance, abs_of_nonneg hsub, nbrAvg]
  simp only [nbrMin, nbrMax, i32Min, i32Max] at *
  omega

/-- **C1**: for every nonzero 32-bit signed integer `v`, `clean_data` maps
`[0,0,0,v,0,0,0]` to `[0,0,0,0,0,0,0]`: the spike's neighbor window has
`min = max = avg = 0` and `distance = 0`, so any nonzero center is flagged
and replaced by `0`; every other position is kept. -/
theorem clean_data_single_spike (v : ℤ) (_hv : v ≠ 0)
    (h1 : i32Min ≤ v) (h2 : v ≤ i32Max) :
    clean_data [0, 0, 0, v, 0, 0, 0] = [0, 0, 0, 0, 0, 0, 0] := by
  show [evalWindow i32Max i32Min 0 0 0,
        evalWindow i32Min 0 0 0 v,
        evalWindow 0 0 0 v 0,
        evalWindow 0 0 v 0 0,
        evalWindow 0 v 0 0 0,
        evalWindow v 0 0 0 i32Max,
        evalWindow 0 0 0 i32Max i32Min] = [0, 0, 0, 0, 0, 0, 0]
  rw [evalWindow_sentinel_front 0 0 0 (by decide) (by decide) (by decide) (by decide)
      (by decide) (by decide),
    evalWindow_spike1 v h1 h2, evalWindow_spike2 v h1 h2, evalWindow_spike3 v,
    evalWindow_spike4 v h1 h2, evalWindow_spike5 v h1 h2,
    evalWindow_sentinel_back 0 0 0 (by decide) (by decide) (by decide) (by decide)
      (by decide) (by decide)]

/-- Witness for `clean_data_single_spike` at `v = 100` and `v = 6`
(Scenarios A and B of the spec). -/
theorem clean_data_single_spike_witness :
    ((100 : ℤ) ≠ 0 ∧ i32Min ≤ (100 : ℤ) ∧ (100 : ℤ) ≤ i32Max ∧
      clean_data [0, 0, 0, 100, 0, 0, 0] = [0, 0, 0, 0, 0, 0, 0]) ∧
    ((6 : ℤ) ≠ 0 ∧ clean_data [0, 0, 0, 6, 0, 0, 0] = [0, 0, 0, 0, 0, 0, 0]) :=
  ⟨⟨by decide, by decide, by decide,
      clean_data_single_spike 100 (by decide) (by decide) (by decide)⟩,
    ⟨by decide, clean_data_single_spike 6 (by decide) (by decide) (by decide)⟩⟩

/-- **C3 (counterexample)**: in the non-empty input
`[i32::MIN, 0, i32::MIN, i32::MIN]` (length 4, so position 1 is among the
claimed-protected positions `0, 1, n−2, n−1`), position 1 *is* replaced: its
window `(MIN, MIN, 0, MIN, MIN)` has all four neighbors equal to the leading
`i32::MIN` sentinel, so `min = max = avg = i32::MIN`, `distance = 0`, and
the zero center is flagged and replaced by `i32::MIN`. -/
theorem clean_data_replaces_position_one :
    (clean_data [i32Min, 0, i32Min, i32Min]).getD 1 0 ≠
      ([i32Min, 0, i32Min, i32Min] : List ℤ).getD 1 0 := by decide

/-- **C3 (amended)**: the batch filter never replaces the first and the last
sample of a non-empty sequence, because their windows contain both the
`MAX` and the `MIN` sentinel, forcing a full-range `distance`.  (Positions 1
and `n−2` enjoy no such guarantee once `n ≥ 4`: only one sentinel reaches
their windows, and if every real neighbor equals that sentinel's value the
spread collapses, as the counterexample shows.) -/
theorem clean_data_preserves_ends (x : List ℤ) (hne : x ≠ [])
    (hx : ∀ a ∈ x, i32Min ≤ a ∧ a ≤ i32Max) :
    (clean_data x).getD 0 0 = x.getD 0 0 ∧
    (clean_data x).getD (x.length - 1) 0 = x.getD (x.length - 1) 0 := by
  have hn : 1 ≤ x.length := by
    cases x with
    | nil => exact absurd rfl hne
    | cons a t => simp only [List.length_cons]; omega
  have hplen : (paddedI x).length = x.length + 4 := paddedI_length x
  have hrange : ∀ j, j < (paddedI x).length → i32Min ≤ (paddedI x).getD j 0 ∧
      (paddedI x).getD j 0 ≤ i32Max := fun j hj =>
    paddedI_mem_range x hx _ (getD_mem 0 (paddedI x) j hj)
  constructor
  · rw [clean_data, mapWindows5_getD _ _ _ 0 (by omega)]
    have hmid0 : (paddedI x).getD (0 + 2) 0 = x.getD 0 0 := paddedI_getD_mid x 0 (by omega)
    have h2 := hrange (0 + 2) (by omega)
    rw [hmid0] at h2
    have h3 := hrange (0 + 3) (by omega)
    have h4 := hrange (0 + 4) (by omega)
    rw [paddedI_getD_zero, paddedI_getD_one, hmid0]
    exact evalWindow_sentinel_front _ _ _ h2.1 h2.2 h3.1 h3.2 h4.1 h4.2
  · rw [clean_data, mapWindows5_getD _ _ _ (x.length - 1) (by omega)]
    have e3 : x.length - 1 + 3 = x.length + 2 := by omega
    have e4 : x.length - 1 + 4 = x.length + 3 := by omega
    rw [e3, e4, paddedI_getD_backMax, paddedI_getD_backMin]
    rw [paddedI_getD_mid x (x.length - 1) (by omega)]
    have ha := hrange (x.length - 1) (by omega)
    have hb2 := hrange (x.length - 1 + 1) (by omega)
    have hc := hrange (x.length - 1 + 2) (by omega)
    rw [paddedI_getD_mid x (x.length - 1) (by omega)] at hc
    exact evalWindow_sentinel_back _ _ _ ha.1 ha.2 hb2.1 hb2.2 hc.1 hc.2

/-- Witness for `clean_data_preserves_ends` on the ramp `[0,10,20,30,40,50]`. -/
theorem clean_data_preserves_ends_witness :
    (([0, 10, 20, 30, 40, 50] : List ℤ) ≠ [] ∧
      ∀ a ∈ ([0, 10, 20, 30, 40, 50] : List ℤ), i32Min ≤ a ∧ a ≤ i32Max) ∧
    (clean_data [0, 10, 20, 30, 40, 50]).getD 0 0 =
      ([0, 10, 20, 30, 40, 50] : List ℤ).getD 0 0 ∧
    (clean_data [0, 10, 20, 30, 40, 50]).getD
        (([0, 10, 20, 30, 40, 50] : List ℤ).length - 1) 0 =
      ([0, 10, 20, 30, 40, 50] : List ℤ).getD
        (([0, 10, 20, 30, 40, 50] : List ℤ).length - 1) 0 :=
  ⟨⟨by decide, by decide⟩,
    clean_data_preserves_ends [0, 10, 20, 30, 40, 50] (by decide) (by decide)⟩

/-- Position `i` of the sentinel-padded input classifies its center as an
inlier: the center lies within `avg ± 2·distance` of the thresholds computed
from its own four-neighbor window.  (`abbrev` so the predicate is decidable
by unfolding.) -/
abbrev inlierAt (x : List ℤ) (i : ℕ) : Prop :=
  (paddedI x).getD (i + 2) 0 ≤
      nbrAvg ((paddedI x).getD i 0) ((paddedI x).getD (i + 1) 0)
          ((paddedI x).getD (i + 3) 0) ((paddedI x).getD (i + 4) 0) +
        nbrDistance ((paddedI x).getD i 0) ((paddedI x).getD (i + 1) 0)
          ((paddedI x).getD (i + 3) 0) ((paddedI x).getD (i + 4) 0) * 2 ∧
  nbrAvg ((paddedI x).getD i 0) ((paddedI x).getD (i + 1) 0)
      ((paddedI x).getD (i + 3) 0) ((paddedI x).getD (i + 4) 0) -
    nbrDistance ((paddedI x).getD i 0) ((paddedI x).getD (i + 1) 0)
      ((paddedI x).getD (i + 3) 0) ((paddedI x).getD (i + 4) 0) * 2 ≤
  (paddedI x).getD (i + 2) 0

/-- **C4**: a sequence in which every sample already lies within
`avg ± 2·distance` of its own four-neighbor window of the sentinel-padded
sequence is a fixed point of `clean_data`. -/
theorem clean_data_fixed_point (x : List ℤ)
    (h : ∀ i, i < x.length → inlierAt x i) : clean_data x = x := by
  apply eq_of_getD 0
  · rw [clean_data, mapWindows5_length, paddedI_length]; omega
  · intro i hi
    have hi' : i < x.length := by
      rwa [clean_data, mapWindows5_length, paddedI_length, Nat.add_sub_cancel] at hi
    rw [clean_data, mapWindows5_getD _ _ _ i (by rw [paddedI_length]; omega)]
    have hin := h i hi'
    rw [evalWindow_not_outlier (by push_neg; exact ⟨hin.1, hin.2⟩)]
    exact paddedI_getD_mid x i hi'

/-- Witness for `clean_data_fixed_point` on the monotonic ramp of
Scenario C. -/
theorem clean_data_fixed_point_witness :
    (∀ i, i < ([0, 10, 20, 30, 40, 50] : List ℤ).length →
        inlierAt [0, 10, 20, 30, 40, 50] i) ∧
    clean_data [0, 10, 20, 30, 40, 50] = [0, 10, 20, 30, 40, 50] :=
  ⟨by decide, clean_data_fixed_point [0, 10, 20, 30, 40, 50] (by decide)⟩

/-- **C7**: whenever the widened neighbor average falls outside the 32-bit
signed range and the center is flagged as an outlier, the replacement
produced by the `clean_data` window evaluator is the saturated bound
`i32::MAX` (when `avg` overshoots) or `i32::MIN` (when it undershoots) —
never a wrapped value.  (For windows drawn from genuine `i32` samples this
situation cannot arise; see `clean_data_avg_in_range`.) -/
theorem evalWindow_saturates (a b c d e : ℤ)
    (hout : i32Max < nbrAvg a b d e ∨ nbrAvg a b d e < i32Min)
    (hflag : c > nbrAvg a b d e + nbrDistance a b d e * 2 ∨
             c < nbrAvg a b d e - nbrDistance a b d e * 2) :
    evalWindow a b c d e = if i32Max < nbrAvg a b d e then i32Max else i32Min := by
  show (if c > nbrAvg a b d e + nbrDistance a b d e * 2 ∨
          c < nbrAvg a b d e - nbrDistance a b d e * 2 then
        if i32Min ≤ nbrAvg a b d e ∧ nbrAvg a b d e ≤ i32Max then nbrAvg a b d e
        else if i32Max < nbrAvg a b d e then i32Max else i32Min
      else c) = _
  rw [if_pos hflag, if_neg (by omega)]

/-- Witness for `evalWindow_saturates`: all four neighbors equal `2^40`, so
`avg = 2^40 > i32::MAX`, and the zero center is flagged; the replacement is
`i32::MAX`. -/
theorem evalWindow_saturates_witness :
    (i32Max < nbrAvg 1099511627776 1099511627776 1099511627776 1099511627776 ∨
      nbrAvg 1099511627776 1099511627776 1099511627776 1099511627776 < i32Min) ∧
    ((0 : ℤ) > nbrAvg 1099511627776 1099511627776 1099511627776 1099511627776 +
        nbrDistance 1099511627776 1099511627776 1099511627776 1099511627776 * 2 ∨
      (0 : ℤ) < nbrAvg 1099511627776 1099511627776 1099511627776 1099511627776 -
        nbrDistance 1099511627776 1099511627776 1099511627776 1099511627776 * 2) ∧
    evalWindow 1099511627776 1099511627776 0 1099511627776 1099511627776 =
      if i32Max < nbrAvg 1099511627776 1099511627776 1099511627776 1099511627776
      then i32Max else i32Min :=
  ⟨by decide, by decide,
    evalWindow_saturates 1099511627776 1099511627776 0 1099511627776 1099511627776
      (by decide) (by decide)⟩

/-- Modelled from the spec for comparison in C9: the window evaluator with
the saturating fallback removed — the claim asserts the fallback branch is
unreachable on genuine `i32` windows, so the two evaluators must agree
there. -/
def evalWindowNoSat (a b c d e : ℤ) : ℤ :=
  if c > nbrAvg a b d e + nbrDistance a b d e * 2 ∨
      c < nbrAvg a b d e - nbrDistance a b d e * 2 then
    nbrAvg a b d e
  else c

/-- **C9**: on any window whose four neighbors are genuine 32-bit values,
the widened average stays between the neighbor minimum and maximum, hence
inside the `i32` range, so `try_into` always succeeds: the saturating
fallback of `clean_data` is unreachable and narrowing never clamps. -/
theorem clean_data_avg_in_range (a b c d e : ℤ)
    (ha1 : i32Min ≤ a) (ha2 : a ≤ i32Max) (hb1 : i32Min ≤ b) (hb2 : b ≤ i32Max)
    (hd1 : i32Min ≤ d) (hd2 : d ≤ i32Max) (he1 : i32Min ≤ e) (he2 : e ≤ i32Max) :
    (i32Min ≤ nbrAvg a b d e ∧ nbrAvg a b d e ≤ i32Max) ∧
    evalWindow a b c d e = evalWindowNoSat a b c d e := by
  have hbetween := nbrAvg_between a b d e
  have hmn : i32Min ≤ nbrMin a b d e := by simp only [nbrMin]; omega
  have hmx : nbrMax a b d e ≤ i32Max := by simp only [nbrMax]; omega
  have hrange : i32Min ≤ nbrAvg a b d e ∧ nbrAvg a b d e ≤ i32Max := by
    constructor <;> omega
  refine ⟨hrange, ?_⟩
  show (if c > nbrAvg a b d e + nbrDistance a b d e * 2 ∨
          c < nbrAvg a b d e - nbrDistance a b d e * 2 then
        if i32Min ≤ nbrAvg a b d e ∧ nbrAvg a b d e ≤ i32Max then nbrAvg a b d e
        else if i32Max < nbrAvg a b d e then i32Max else i32Min
      else c) = evalWindowNoSat a b c d e
  rw [evalWindowNoSat]
  by_cases hf : c > nbrAvg a b d e + nbrDistance a b d e * 2 ∨
      c < nbrAvg a b d e - nbrDistance a b d e * 2
  · rw [if_pos hf, if_pos hf, if_pos hrange]
  · rw [if_neg hf, if_neg hf]

/-- Witness for `clean_data_avg_in_range` on the window
`(i32::MAX, i32::MIN, 7, 0, −1)`. -/
theorem clean_data_avg_in_range_witness :
    (i32Min ≤ nbrAvg i32Max i32Min 0 (-1) ∧ nbrAvg i32Max i32Min 0 (-1) ≤ i32Max) ∧
    evalWindow i32Max i32Min 7 0 (-1) = evalWindowNoSat i32Max i32Min 7 0 (-1) :=
  clean_data_avg_in_range i32Max i32Min 7 0 (-1) (by decide) (by decide) (by decide)
    (by decide) (by decide) (by decide) (by decide) (by decide)

/-- **C10**: the legacy `clean_data_old` and the sentinel-padded
`clean_data` are not equivalent: on `[0,0,0,100,0,0,0]` the legacy variant
returns the ten-element list `[0,0,0,100,0,0,100,0,0,0]` while `clean_data`
returns `[0,0,0,0,0,0,0]`. -/
theorem clean_data_old_ne_clean_data :
    ∃ data : List ℤ, clean_data_old data ≠ clean_data data :=
  ⟨[0, 0, 0, 100, 0, 0, 0], by decide⟩

/-! ### The floating-point pair `clean_data_f` / `clean_data_f_inner`

The two float passes are embedded generically over a record of the `f32`
and `f64` operations they use.  The equivalence and bounds-safety claims
about them are structural: they hold for every interpretation of those
operations, so proving them over an abstract carrier settles them for the
IEEE-754 semantics in particular.  `F` stands for `f32`, `W` for the
widened `f64`. -/

/-- The floating-point operations used by the two passes: `f32::min`/`max`,
widening `as f64`, `f64` addition/subtraction/`abs`, division by `2.0`,
multiplication by `2.0`, the `f64` strict order, narrowing `as f32`, and
the two sentinel constants `f32::MAX`/`f32::MIN`. -/
structure FOps (F : Type u) (W : Type v) where
  fmin : F → F → F
  fmax : F → F → F
  wide : F → W
  wadd : W → W → W
  wsub : W → W → W
  wabs : W → W
  whalf : W → W
  wtwice : W → W
  wlt : W → W → Bool
  narrow : W → F
  fMAX : F
  fMIN : F

/-- The shared body of the `map_windows` closure of `clean_data_f`
(lib.rs:270-281) and of the window evaluation inside `clean_data_f_inner`
(lib.rs:213-230); the two Rust expressions are textually identical modulo
dereferencing.  `point > avg + 2d` is `wlt (avg + 2d) point`. -/
def evalWindowF (ops : FOps F W) (a b c d e : F) : F :=
  let point := c
  let mn := ops.fmin (ops.fmin (ops.fmin a b) d) e
  let mx := ops.fmax (ops.fmax (ops.fmax a b) d) e
  let distance := ops.wabs (ops.wsub (ops.wide mx) (ops.wide mn))
  let avg := ops.whalf (ops.wadd (ops.wide mx) (ops.wide mn))
  if ops.wlt (ops.wadd avg (ops.wtwice distance)) (ops.wide point) ||
      ops.wlt (ops.wide point) (ops.wsub avg (ops.wtwice distance)) then
    ops.narrow avg
  else
    point

/-- The allocating batch pass `clean_data_f` (lib.rs:259-285): build the
sentinel-padded copy `f32::MAX, f32::MIN, data..., f32::MAX, f32::MIN`,
then map the window evaluator over it.  (The `println!` on lib.rs:260 has
no effect on the returned data.) -/
def clean_data_f (ops : FOps F W) (data : List F) : List F :=
  let data_copy := padWith ops.fMAX ops.fMIN data
  mapWindows5 (evalWindowF ops) data_copy

/-- A bounds-checked slice write `l[i] = v`: `none` models the Rust
out-of-bounds panic. -/
def setOpt (l : List α) (i : ℕ) (v : α) : Option (List α) :=
  if i < l.length then some (l.set i v) else none

/-- The copy loop of `clean_data_f_inner` (lib.rs:206-208):
`for i in 0..data.len() { working_buffer[i + 2] = data[i]; }`, with every
index access bounds-checked. -/
def copyLoop (data : List α) : ℕ → List α → Option (List α)
  | i, wb =>
    if _h : i < data.length then
      data[i]?.bind fun v =>
      (setOpt wb (i + 2) v).bind fun wb2 =>
      copyLoop data (i + 1) wb2
    else some wb
termination_by i _ => data.length - i

/-- The evaluation loop of `clean_data_f_inner` (lib.rs:213-231): for each
`i` below the (fixed) block length `n`, read the five-sample window from the
scratch buffer and write the evaluator's result back into the block. -/
def evalLoop (ops : FOps F W) (wb : List F) (n : ℕ) : ℕ → List F → Option (List F)
  | i, data =>
    if _h : i < n then
      wb[i]?.bind fun a =>
      wb[i + 1]?.bind fun b =>
      wb[i + 2]?.bind fun c =>
      wb[i + 3]?.bind fun d =>
      wb[i + 4]?.bind fun e =>
      (setOpt data i (evalWindowF ops a b c d e)).bind fun data2 =>
      evalLoop ops wb n (i + 1) data2
    else some data
termination_by i _ => n - i

/-- The in-place streaming pass `clean_data_f_inner` (lib.rs:199-232):
write the sentinels into scratch positions `0,1` and `n+2,n+3`, copy the
block into positions `2..n+2`, then run the evaluation loop.  Every slice
access is bounds-checked: `none` models the Rust panic on an undersized
scratch buffer.  Returns the mutated block together with the final scratch
contents. -/
def clean_data_f_inner (ops : FOps F W) (data wb0 : List F) :
    Option (List F × List F) :=
  (setOpt wb0 0 ops.fMAX).bind fun wb1 =>
  (setOpt wb1 1 ops.fMIN).bind fun wb2 =>
  (copyLoop data 0 wb2).bind fun wb3 =>
  (setOpt wb3 (data.length + 2) ops.fMAX).bind fun wb4 =>
  (setOpt wb4 (data.length + 3) ops.fMIN).bind fun wb5 =>
  (evalLoop ops wb5 data.length 0 data).bind fun out =>
  some (out, wb5)

/-- A concrete instantiation of the float operations (over `ℤ`), used to
exercise the generic theorems on computable inputs. -/
def intFOps : FOps ℤ ℤ where
  fmin := min
  fmax := max
  wide := id
  wadd := (· + ·)
  wsub := (· - ·)
  wabs := fun x => |x|
  whalf := fun x => Int.tdiv x 2
  wtwice := fun x => x * 2
  wlt := fun x y => decide (x < y)
  narrow := id
  fMAX := i32Max
  fMIN := i32Min

theorem setOpt_some {l : List α} {i : ℕ} (v : α) (h : i < l.length) :
    setOpt l i v = some (l.set i v) := by rw [setOpt, if_pos h]

theorem setOpt_none {l : List α} {i : ℕ} (v : α) (h : ¬i < l.length) :
    setOpt l i v = none := by rw [setOpt, if_neg h]

/-- `getD` view of a `set`: position `i` holds the written value (when the
write was in bounds), all others are untouched. -/
theorem getD_set (v z : α) : ∀ (l : List α) (i j : ℕ),
    (l.set i v).getD j z = if i = j ∧ i < l.length then v else l.getD j z := by
  intro l
  induction l with
  | nil => intro i j; simp [List.set]
  | cons a t ih =>
    intro i j
    cases i with
    | zero =>
      cases j with
      | zero => simp
      | succ j2 => simp [List.getD_cons_succ]
    | succ i2 =>
      cases j with
      | zero => simp [List.getD_cons_zero]
      | succ j2 =>
        simp only [List.set, List.getD_cons_succ, List.length_cons]
        rw [ih i2 j2]
        have hiff : (i2 = j2 ∧ i2 < t.length) ↔
            (i2 + 1 = j2 + 1 ∧ i2 + 1 < t.length + 1) := by omega
        rw [if_congr hiff rfl rfl]

/-- The copy loop succeeds whenever the scratch buffer holds the block plus
two leading sentinels, and afterwards scratch positions `i+2 ≤ j < n+2`
hold the block while all others are untouched. -/
theorem copyLoop_some (data : List α) :
    ∀ (k i : ℕ) (wb : List α), data.length - i = k →
      data.length + 2 ≤ wb.length →
      ∃ wb', copyLoop data i wb = some wb' ∧ wb'.length = wb.length ∧
        ∀ (j : ℕ) (z : α), wb'.getD j z =
          if i + 2 ≤ j ∧ j < data.length + 2 then data.getD (j - 2) z
          else wb.getD j z := by
  intro k
  induction k with
  | zero =>
    intro i wb hk hlen
    rw [copyLoop, dif_neg (by omega)]
    exact ⟨wb, rfl, rfl, fun j z => by rw [if_neg (by omega)]⟩
  | succ k ih =>
    intro i wb hk hlen
    have hi : i < data.length := by omega
    rw [copyLoop, dif_pos hi, List.getElem?_eq_getElem hi, Option.some_bind,
      setOpt_some _ (by omega : i + 2 < wb.length), Option.some_bind]
    obtain ⟨wb', hrun, hlen', hchar⟩ :=
      ih (i + 1) (wb.set (i + 2) (data.get ⟨i, hi⟩)) (by omega)
        (by rw [List.length_set]; omega)
    refine ⟨wb', hrun, by rw [hlen', List.length_set], fun j z => ?_⟩
    rw [hchar j z, getD_set]
    by_cases hj : i + 1 + 2 ≤ j ∧ j < data.length + 2
    · rw [if_pos hj, if_pos (by omega)]
    · rw [if_neg hj]
      by_cases hji : i + 2 = j
      · rw [if_pos ⟨hji, by omega⟩, if_pos (by omega)]
        rw [show j - 2 = i by omega, List.getD_eq_getElem _ _ hi]
        rfl
      · rw [if_neg (by omega), if_neg (by omega)]

/-- The copy loop fails (hits an out-of-bounds write) whenever the scratch
buffer is shorter than the block plus two and at least one copy step
remains. -/
theorem copyLoop_none (data : List α) :
    ∀ (k i : ℕ) (wb : List α), data.length - i = k →
      i < data.length → wb.length < data.length + 2 →
      copyLoop data i wb = none := by
  intro k
  induction k with
  | zero => intro i wb hk hi _; omega
  | succ k ih =>
    intro i wb hk hi hlen
    rw [copyLoop, dif_pos hi, List.getElem?_eq_getElem hi, Option.some_bind]
    by_cases hw : i + 2 < wb.length
    · rw [setOpt_some _ hw, Option.some_bind]
      have hi1 : i + 1 < data.length := by omega
      exact ih (i + 1) _ (by omega) hi1 (by rw [List.length_set]; omega)
    · rw [setOpt_none _ hw, Option.none_bind]

/-- The evaluation loop succeeds whenever the scratch buffer covers the
block plus four sentinels; afterwards every position at or above the start
index holds the evaluator's result on its scratch window, and every position
below it is untouched. -/
theorem evalLoop_some (ops : FOps F W) (wb : List F) (n : ℕ) (hwb : n + 4 ≤ wb.length) :
    ∀ (k i : ℕ) (data : List F), n - i = k → data.length = n →
      ∃ out, evalLoop ops wb n i data = some out ∧ out.length = n ∧
        ∀ (j : ℕ) (z : F), j < n →
          out.getD j z =
            if i ≤ j then
              evalWindowF ops (wb.getD j z) (wb.getD (j + 1) z) (wb.getD (j + 2) z)
                (wb.getD (j + 3) z) (wb.getD (j + 4) z)
            else data.getD j z := by
  intro k
  induction k with
  | zero =>
    intro i data hk hd
    rw [evalLoop, dif_neg (by omega)]
    exact ⟨data, rfl, hd, fun j z hj => by rw [if_neg (by omega)]⟩
  | succ k ih =>
    intro i data hk hd
    have hi : i < n := by omega
    have hb0 : i < wb.length := by omega
    have hb1 : i + 1 < wb.length := by omega
    have hb2 : i + 2 < wb.length := by omega
    have hb3 : i + 3 < wb.length := by omega
    have hb4 : i + 4 < wb.length := by omega
    rw [evalLoop, dif_pos hi,
      List.getElem?_eq_getElem hb0, Option.some_bind,
      List.getElem?_eq_getElem hb1, Option.some_bind,
      List.getElem?_eq_getElem hb2, Option.some_bind,
      List.getElem?_eq_getElem hb3, Option.some_bind,
      List.getElem?_eq_getElem hb4, Option.some_bind,
      setOpt_some _ (show i < data.length by omega), Option.some_bind]
    obtain ⟨out, hrun, hlenout, hchar⟩ :=
      ih (i + 1)
        (data.set i (evalWindowF ops (wb.get ⟨i, hb0⟩) (wb.get ⟨i + 1, hb1⟩)
          (wb.get ⟨i + 2, hb2⟩) (wb.get ⟨i + 3, hb3⟩) (wb.get ⟨i + 4, hb4⟩)))
        (by omega) (by rw [List.length_set]; exact hd)
    refine ⟨out, hrun, hlenout, fun j z hj => ?_⟩
    rw [hchar j z hj]
    by_cases hij : i + 1 ≤ j
    · rw [if_pos hij, if_pos (by omega)]
    · by_cases hji : j = i
      · subst hji
        rw [if_neg hij, if_pos (le_refl _), getD_set,
          if_pos ⟨rfl, by omega⟩,
          List.getD_eq_getElem _ _ hb0, List.getD_eq_getElem _ _ hb1,
          List.getD_eq_getElem _ _ hb2, List.getD_eq_getElem _ _ hb3,
          List.getD_eq_getElem _ _ hb4]
        rfl
      · rw [if_neg hij, if_neg (by omega), getD_set, if_neg (by omega)]

/-- Index form of `padWith_getD_mid`: positions `2 ≤ j < n + 2` of the
padded sequence hold input position `j − 2`. -/
theorem padWith_getD_mid2 (hi lo z : α) (x : List α) (j : ℕ) (h2 : 2 ≤ j)
    (h : j < x.length + 2) : (padWith hi lo x).getD j z = x.getD (j - 2) z := by
  obtain ⟨k, rfl⟩ : ∃ k, j = k + 2 := ⟨j - 2, by omega⟩
  rw [Nat.add_sub_cancel]
  exact padWith_getD_mid hi lo z x k (by omega)

/-- Running `clean_data_f_inner` on a sufficiently long scratch buffer
succeeds and mutates the block into exactly the batch output
`clean_data_f`.  The key step is that after the sentinel writes and the
copy loop, the scratch buffer's first `n + 4` positions agree with the
batch pass's padded copy. -/
theorem clean_data_f_inner_run (ops : FOps F W) (data wb0 : List F)
    (h : data.length + 4 ≤ wb0.length) :
    ∃ wb', clean_data_f_inner ops data wb0 = some (clean_data_f ops data, wb') := by
  have hs0 : (0 : ℕ) < wb0.length := by omega
  have hs1 : 1 < (wb0.set 0 ops.fMAX).length := by rw [List.length_set]; omega
  rw [clean_data_f_inner, setOpt_some _ hs0, Option.some_bind,
    setOpt_some _ hs1, Option.some_bind]
  have hw2 : ((wb0.set 0 ops.fMAX).set 1 ops.fMIN).length = wb0.length := by
    simp [List.length_set]
  obtain ⟨wb3, hcopy, hlen3, hchar3⟩ :=
    copyLoop_some data data.length 0 ((wb0.set 0 ops.fMAX).set 1 ops.fMIN)
      (by omega) (by rw [hw2]; omega)
  rw [hcopy, Option.some_bind]
  have hlen3' : wb3.length = wb0.length := by rw [hlen3, hw2]
  have hs2 : data.length + 2 < wb3.length := by omega
  have hs3 : data.length + 3 < (wb3.set (data.length + 2) ops.fMAX).length := by
    rw [List.length_set]; omega
  rw [setOpt_some _ hs2, Option.some_bind, setOpt_some _ hs3, Option.some_bind]
  have hlen5 : ((wb3.set (data.length + 2) ops.fMAX).set (data.length + 3)
      ops.fMIN).length = wb0.length := by
    simp only [List.length_set]; omega
  obtain ⟨out, hrun, hlenout, hcharout⟩ :=
    evalLoop_some ops ((wb3.set (data.length + 2) ops.fMAX).set (data.length + 3)
        ops.fMIN) data.length (by rw [hlen5]; omega)
      data.length 0 data (by omega) rfl
  rw [hrun, Option.some_bind]
  have hwb5 : ∀ (jj : ℕ) (z : F), jj < data.length + 4 →
      ((wb3.set (data.length + 2) ops.fMAX).set (data.length + 3)
          ops.fMIN).getD jj z =
        (padWith ops.fMAX ops.fMIN data).getD jj z := by
    intro jj z hjj
    have hl1 : data.length + 3 < (wb3.set (data.length + 2) ops.fMAX).length := hs3
    have hl4 : 1 < (wb0.set 0 ops.fMAX).length := hs1
    rw [getD_set, getD_set, hchar3 jj z, getD_set, getD_set]
    split_ifs with h1 h2 h3 h4 h5
    · rw [← h1.1, padWith_getD_backMin]
    · rw [← h2.1, padWith_getD_backMax]
    · rw [padWith_getD_mid2 ops.fMAX ops.fMIN z data jj (by omega) (by omega)]
    · rw [← h4.1, padWith_getD_one]
    · rw [← h5.1, padWith_getD_zero]
    · exfalso
      omega
  have hout : out = clean_data_f ops data := by
    apply eq_of_getD ops.fMIN
    · rw [hlenout]
      show data.length =
        (mapWindows5 (evalWindowF ops) (padWith ops.fMAX ops.fMIN data)).length
      rw [mapWindows5_length, padWith_length]
      omega
    · intro j hj
      rw [hlenout] at hj
      rw [hcharout j ops.fMIN hj, if_pos (Nat.zero_le j),
        hwb5 j _ (by omega), hwb5 (j + 1) _ (by omega), hwb5 (j + 2) _ (by omega),
        hwb5 (j + 3) _ (by omega), hwb5 (j + 4) _ (by omega)]
      show _ =
        (mapWindows5 (evalWindowF ops) (padWith ops.fMAX ops.fMIN data)).getD j ops.fMIN
      rw [mapWindows5_getD _ _ _ j (by rw [padWith_length]; omega)]
  exact ⟨_, by rw [hout]⟩

/-- `clean_data_f_inner` fails at a bounds check whenever the scratch
buffer is shorter than the block length plus four: the violating write is
the first sentinel store, the copy loop, or one of the two trailing
sentinel stores, whichever is reached first. -/
theorem clean_data_f_inner_none (ops : FOps F W) (data wb0 : List F)
    (hlen : wb0.length < data.length + 4) :
    clean_data_f_inner ops data wb0 = none := by
  rw [clean_data_f_inner]
  by_cases h0 : 0 < wb0.length
  case neg => rw [setOpt_none _ h0, Option.none_bind]
  rw [setOpt_some _ h0, Option.some_bind]
  by_cases h1 : 1 < (wb0.set 0 ops.fMAX).length
  case neg => rw [setOpt_none _ h1, Option.none_bind]
  rw [setOpt_some _ h1, Option.some_bind]
  have h1' : 1 < wb0.length := by rwa [List.length_set] at h1
  have hw2 : ((wb0.set 0 ops.fMAX).set 1 ops.fMIN).length = wb0.length := by
    simp [List.length_set]
  by_cases hc : wb0.length < data.length + 2
  · rw [copyLoop_none data data.length 0 _ rfl (by omega) (by rw [hw2]; omega),
      Option.none_bind]
  · obtain ⟨wb3, hcopy, hlen3, _⟩ :=
      copyLoop_some data data.length 0 ((wb0.set 0 ops.fMAX).set 1 ops.fMIN)
        (by omega) (by rw [hw2]; omega)
    rw [hcopy, Option.some_bind]
    have hlen3' : wb3.length = wb0.length := by rw [hlen3, hw2]
    by_cases hd2 : data.length + 2 < wb3.length
    · rw [setOpt_some _ hd2, Option.some_bind,
        setOpt_none _ (show ¬data.length + 3 <
          (wb3.set (data.length + 2) ops.fMAX).length by rw [List.length_set]; omega),
        Option.none_bind]
    · rw [setOpt_none _ hd2, Option.none_bind]

/-- **C2**: for every block and every scratch buffer of length at least
block length + 4, the in-place streaming pass `clean_data_f_inner` leaves
the block equal to the output of the allocating batch pass `clean_data_f`
on the original block contents — for every interpretation of the
floating-point operations, hence in particular for IEEE-754 `f32`/`f64`. -/
theorem clean_data_f_inner_streams_batch (ops : FOps F W) (data wb0 : List F)
    (h : data.length + 4 ≤ wb0.length) :
    ∃ wb', clean_data_f_inner ops data wb0 = some (clean_data_f ops data, wb') :=
  clean_data_f_inner_run ops data wb0 h

/-- Witness for `clean_data_f_inner_streams_batch` on a concrete block and
scratch buffer (operations instantiated over `ℤ`). -/
theorem clean_data_f_inner_streams_batch_witness :
    (([0, 100, 0] : List ℤ).length + 4 ≤ (List.replicate 7 (0 : ℤ)).length) ∧
    ∃ wb', clean_data_f_inner intFOps [0, 100, 0] (List.replicate 7 0) =
      some (clean_data_f intFOps [0, 100, 0], wb') :=
  ⟨by decide,
    clean_data_f_inner_streams_batch intFOps [0, 100, 0]
      (List.replicate 7 0) (by decide)⟩

/-- **C8**: `clean_data_f_inner` completes (every bounds-checked index
access on the scratch buffer and the block is in bounds) exactly when the
scratch buffer is at least four longer than the block; when the
precondition is violated the call fails deterministically at a bounds
check (`none`, modelling the Rust panic) instead of accessing out of
bounds. -/
theorem clean_data_f_inner_isSome_iff (ops : FOps F W) (data wb0 : List F) :
    (clean_data_f_inner ops data wb0).isSome = true ↔
      data.length + 4 ≤ wb0.length := by
  constructor
  · intro h
    by_contra hlen
    rw [not_le] at hlen
    rw [clean_data_f_inner_none ops data wb0 hlen] at h
    simp at h
  · intro h
    obtain ⟨wb', heq⟩ := clean_data_f_inner_run ops data wb0 h
    rw [heq]
    rfl

/-! ### The peak meter of `Gain::process` (lib.rs:145-163)

The per-block `f32` meter arithmetic is modelled exactly over `ℚ`; every
discrepancy established below is exact at the chosen inputs. -/

/-- The amplitude fed into the peak rule (lib.rs:145, 151):
`let mut amplitude: f32 = channel.iter().sum();` followed by
`amplitude = (amplitude / num_samples as f32).abs();` — the absolute value
of the mean of the samples. -/
def blockAmplitude (channel : List ℚ) : ℚ :=
  |channel.sum / (channel.length : ℚ)|

/-- The peak rule (lib.rs:154-159): a rise is tracked immediately,
otherwise the peak decays geometrically toward the amplitude. -/
def newPeak (decayWeight currentPeak amplitude : ℚ) : ℚ :=
  if amplitude > currentPeak then amplitude
  else currentPeak * decayWeight + amplitude * (1 - decayWeight)

/-- One meter update for a just-cleaned block while the display is open
(lib.rs:150-162): compute the block amplitude and apply the peak rule. -/
def meterUpdate (decayWeight currentPeak : ℚ) (channel : List ℚ) : ℚ :=
  newPeak decayWeight currentPeak (blockAmplitude channel)

/-- Modelled from the spec: `amplitude = mean(|sample|)` over the block
(spec §4.4) — the quantity claim C5 says is fed into the peak rule. -/
def specMeanAbs (channel : List ℚ) : ℚ :=
  (channel.map (fun s => |s|)).sum / (channel.length : ℚ)

/-- **C5 (counterexample)**: on the block `[1, −1]` the code's amplitude is
`|(1 + (−1)) / 2| = 0`, while the spec's `mean(|sample|)` is `1`. -/
theorem blockAmplitude_ne_specMeanAbs :
    blockAmplitude [1, -1] ≠ specMeanAbs [1, -1] := by
  norm_num [blockAmplitude, specMeanAbs]

/-- **C5 (amended)**: the amplitude fed into the `newPeak` rule is the
absolute value of the arithmetic mean of the samples, `|mean(sample)|`; it
coincides with the spec's `mean(|sample|)` exactly when the samples cannot
cancel, e.g. on an all-nonnegative block. -/
theorem meterUpdate_meanAbs_of_nonneg (decayWeight currentPeak : ℚ)
    (channel : List ℚ) (h : ∀ s ∈ channel, 0 ≤ s) :
    meterUpdate decayWeight currentPeak channel =
      newPeak decayWeight currentPeak (specMeanAbs channel) := by
  unfold meterUpdate
  congr 1
  unfold blockAmplitude specMeanAbs
  have hmap : channel.map (fun s => |s|) = channel := by
    conv_rhs => rw [← List.map_id channel]
    exact List.map_congr_left (fun s hs => abs_of_nonneg (h s hs))
  have hsum : 0 ≤ channel.sum := List.sum_nonneg h
  rw [hmap, abs_of_nonneg (div_nonneg hsum (by positivity))]

/-- Witness for `meterUpdate_meanAbs_of_nonneg` on the block `[1, 2]`. -/
theorem meterUpdate_meanAbs_of_nonneg_witness :
    (∀ s ∈ ([1, 2] : List ℚ), 0 ≤ s) ∧
    meterUpdate (1 / 2) 0 [1, 2] = newPeak (1 / 2) 0 (specMeanAbs [1, 2]) :=
  ⟨by norm_num, meterUpdate_meanAbs_of_nonneg (1 / 2) 0 [1, 2] (by norm_num)⟩

/-- `k` consecutive meter updates on the constant block
`List.replicate m A`, starting from peak `0`, with the display active. -/
def meterRun (decayWeight A : ℚ) (m : ℕ) : ℕ → ℚ
  | 0 => 0
  | k + 1 => meterUpdate decayWeight (meterRun decayWeight A m k) (List.replicate m A)

/-- The amplitude of a constant nonnegative block is its value. -/
theorem blockAmplitude_replicate (A : ℚ) (m : ℕ) (hm : 0 < m) (hA : 0 ≤ A) :
    blockAmplitude (List.replicate m A) = A := by
  unfold blockAmplitude
  rw [List.sum_replicate, List.length_replicate, nsmul_eq_mul,
    mul_div_cancel_left₀ A (by positivity : ((m : ℚ)) ≠ 0), abs_of_nonneg hA]

/-- **C6 (counterexample)**: feeding one block of constant amplitude `1`
(two samples) with `decayWeight = 1/2` from meter value `0` yields peak
`1`, not the claimed `1·(1 − (1/2)^1) = 1/2`: a rise is tracked
immediately, not through the decay formula. -/
theorem meterRun_ne_decay_formula :
    meterRun (1 / 2) 1 2 1 ≠ 1 * (1 - (1 / 2 : ℚ) ^ 1) := by
  norm_num [meterRun, meterUpdate, blockAmplitude, newPeak]

/-- **C6 (amended)**: starting from peak `0`, feeding `k ≥ 1` blocks of
constant amplitude `A > 0` with the display active yields
`currentPeak_k = A`: the first block already raises the peak to `A`
(attack is one block) and every further block keeps it there. -/
theorem meterRun_constant (decayWeight A : ℚ) (m k : ℕ) (hm : 0 < m)
    (hA : 0 < A) (hk : 1 ≤ k) :
    meterRun decayWeight A m k = A := by
  induction k with
  | zero => omega
  | succ k ih =>
    rcases Nat.lt_or_ge k 1 with h1 | h1
    · have hk0 : k = 0 := by omega
      subst hk0
      show meterUpdate decayWeight (meterRun decayWeight A m 0) (List.replicate m A) = A
      show meterUpdate decayWeight 0 (List.replicate m A) = A
      unfold meterUpdate
      rw [blockAmplitude_replicate A m hm hA.le]
      unfold newPeak
      rw [if_pos (show A > 0 from hA)]
    · show meterUpdate decayWeight (meterRun decayWeight A m k) (List.replicate m A) = A
      rw [ih h1]
      unfold meterUpdate
      rw [blockAmplitude_replicate A m hm hA.le]
      unfold newPeak
      rw [if_neg (lt_irrefl A)]
      ring

/-- Witness for `meterRun_constant`: three constant blocks of amplitude `1`
with `decayWeight = 1/2` leave the peak at `1`. -/
theorem meterRun_constant_witness :
    ((0 : ℕ) < 2 ∧ (0 : ℚ) < 1 ∧ (1 : ℕ) ≤ 3) ∧ meterRun (1 / 2) 1 2 3 = 1 :=
  ⟨⟨by decide, by norm_num, by decide⟩,
    meterRun_constant (1 / 2) 1 2 3 (by decide) (by norm_num) (by decide)⟩

end Robodepop
